import Mathlib

/-!
# Verification of the PromptPress-style text compression pipeline

Shallow embedding of `src/lib/compression-utils.ts`.  Text is modelled as
`List Char`; JavaScript numbers are modelled as exact rationals extended
with the IEEE special values NaN and plus or minus infinity (`JSNum`),
which is exact for every arithmetic step the metric functions perform on
the inputs considered here.  JavaScript regular-expression operations on
the ASCII classes used by the source (`\s`, `[a-z]`, `[A-Z]`, `[^a-zA-Z]`,
literal punctuation classes) are modelled by the corresponding character
predicates; `String.prototype.toLowerCase` is modelled by `Char.toLower`,
which performs the ASCII case mapping the source relies on.
-/

set_option linter.unusedVariables false

/-- The set of characters matched by the JavaScript regex class `\s`
(and removed by `String.prototype.trim`). -/
def wsChar (c : Char) : Bool :=
  [' ', '\t', '\n', '\x0b', '\x0c', '\r',
   '\u00a0', '\u1680', '\u2000', '\u2001', '\u2002', '\u2003', '\u2004',
   '\u2005', '\u2006', '\u2007', '\u2008', '\u2009', '\u200a',
   '\u2028', '\u2029', '\u202f', '\u205f', '\u3000', '\ufeff'].contains c

/-- The JavaScript regex class `[a-z]`. -/
def isLowerAlpha (c : Char) : Bool := 'a' ≤ c && c ≤ 'z'

/-- The JavaScript regex class `[A-Z]`. -/
def isUpperAlpha (c : Char) : Bool := 'A' ≤ c && c ≤ 'Z'

/-- The JavaScript regex class `[a-zA-Z]`. -/
def isAsciiAlpha (c : Char) : Bool := isLowerAlpha c || isUpperAlpha c

/-- Boolean non-emptiness of a token (JavaScript string truthiness). -/
def nonNil (t : List Char) : Bool :=
  match t with
  | [] => false
  | _ :: _ => true

/-- Concatenation of a token list with no separator: `Array.prototype.join('')`. -/
def joinAll (xs : List (List Char)) : List Char := xs.foldr (· ++ ·) []

/-! ## `String.prototype.split(/\s+/)`

JavaScript `split` on runs of whitespace yields an empty first field when
the string starts with whitespace, an empty last field when it ends with
whitespace, and the single field `""` on the empty string.  We fold from
the right, carrying the fields built so far and a flag recording whether
the most recently processed character was whitespace. -/

/-- One step of the right fold implementing `split(/\s+/)`. -/
def splitStep (c : Char) (acc : List (List Char) × Bool) : List (List Char) × Bool :=
  if wsChar c then
    if acc.2 then acc else ([] :: acc.1, true)
  else
    match acc.1 with
    | [] => ([[c]], false)
    | f :: fs => ((c :: f) :: fs, false)

/-- The split state after processing the whole string. -/
def splitState (l : List Char) : List (List Char) × Bool :=
  l.foldr splitStep ([[]], false)

/-- Model of `text.split(/\s+/)` in JavaScript. -/
def jsSplitWs (l : List Char) : List (List Char) := (splitState l).1

/-- Whether a string starts with a whitespace character. -/
def headWs : List Char → Bool
  | [] => false
  | c :: _ => wsChar c

/-- Spec-side tokenisation: the maximal whitespace-free words of the
string, in order, with no empty tokens ("split on runs of whitespace
into tokens"). -/
def tokens : List Char → List (List Char)
  | [] => []
  | [c] => if wsChar c then [] else [[c]]
  | c :: d :: rest =>
    if wsChar c then tokens (d :: rest)
    else
      if wsChar d then [c] :: tokens (d :: rest)
      else
        match tokens (d :: rest) with
        | [] => [[c]]
        | t :: ts => (c :: t) :: ts

/-! ## Punctuation removal

`removePunctuation` is `text.replace(/[,;:'"!?]/g, '')`. -/

/-- The characters in the JavaScript regex class `[,;:'"!?]`. -/
def removedPunct (c : Char) : Bool :=
  [',', ';', ':', '\'', '\"', '!', '?'].contains c

/-- Model of `removePunctuation` from the source: delete every character
of the class `[,;:'"!?]`, leave all other characters untouched. -/
def removePunctuation (l : List Char) : List Char :=
  l.filter (fun c => !removedPunct c)

/-! ## Stopword removal -/

/-- The fixed stopword set from the source, transcribed verbatim
(duplicates included; `Set` membership in JavaScript coincides with
list membership). -/
def stopwordStrings : List String :=
  ["a", "an", "and", "are", "as", "at", "be", "been", "being", "by", "for", "from",
   "has", "have", "he", "her", "him", "his", "how", "i", "in", "into", "is", "it",
   "its", "me", "my", "of", "on", "or", "our", "she", "so", "than", "that", "the",
   "their", "them", "then", "there", "these", "they", "this", "those", "to", "too",
   "us", "was", "we", "were", "what", "when", "where", "which", "who", "why", "will",
   "with", "would", "you", "your", "about", "after", "all", "also", "am", "another",
   "any", "because", "before", "between", "both", "but", "can", "could", "did", "do",
   "does", "each", "few", "had", "here", "if", "just", "like", "make", "many", "may",
   "more", "most", "much", "must", "now", "only", "other", "out", "over", "said",
   "same", "see", "should", "since", "some", "still", "such", "take", "than", "that",
   "the", "their", "them", "then", "there", "these", "they", "this", "those", "through",
   "to", "too", "under", "up", "very", "was", "way", "we", "well", "were", "what",
   "where", "which", "while", "who", "with", "would", "you", "your"]

/-- The stopword set as character lists. -/
def stopwords : List (List Char) := stopwordStrings.map String.toList

/-- The cleaned form of a token computed by the source filter:
`word.toLowerCase().replace(/[^a-z]/g, '')` — lowercase first, then
delete every character outside `a`-`z`. -/
def cleanWord (w : List Char) : List Char :=
  (w.map Char.toLower).filter isLowerAlpha

/-- The source filter predicate: the cleaned form is non-empty
(JavaScript truthiness) and not a stopword. -/
def keepWord (w : List Char) : Bool :=
  nonNil (cleanWord w) && !(stopwords.contains (cleanWord w))

/-- Model of `removeStopwords` from the source: split on runs of
whitespace, keep the tokens whose cleaned form is non-empty and not a
stopword, and join the kept tokens (original form) with no separator. -/
def removeStopwords (l : List Char) : List Char :=
  joinAll ((jsSplitWs l).filter keepWord)

/-! ## The simplified Porter stemmer -/

/-- The ordered suffix list of the source stemmer. -/
def porterSuffixes : List (List Char) :=
  ["sses".toList, "ies".toList, "ss".toList, "s".toList,
   "eed".toList, "ed".toList, "ing".toList]

/-- The body of the `switch` statement in `porterStemmer`: the action
taken once `word.endsWith(suffix)` has been established.  `slice(0, -k)`
is `take (length - k)`. -/
def porterRule (w : List Char) (s : List Char) : List Char :=
  if s = "sses".toList then w.take (w.length - 2)
  else if s = "ies".toList then w.take (w.length - 2)
  else if s = "ss".toList then w
  else if s = "s".toList then w.take (w.length - 1)
  else if s = "eed".toList then (if 4 < w.length then w.take (w.length - 1) else w)
  else if s = "ed".toList then (if 4 < w.length then w.take (w.length - 2) else w)
  else if s = "ing".toList then (if 4 < w.length then w.take (w.length - 3) else w)
  else w

/-- The `for (const suffix of suffixes)` loop: the first suffix that
matches fires its rule; if none matches, the word is returned. -/
def porterLoop (w : List Char) : List (List Char) → List Char
  | [] => w
  | s :: rest => if s.isSuffixOf w then porterRule w s else porterLoop w rest

/-- Model of `porterStemmer` from the source: lowercase, then apply the
first matching suffix rule. -/
def porterStemmer (word : List Char) : List Char :=
  porterLoop (word.map Char.toLower) porterSuffixes

/-! ## Stemming stage -/

/-- The three stemmer variants of `CompressionOptions.stemmerType`. -/
inductive StemmerType where
  | porter : StemmerType
  | snowball : StemmerType
  | lancaster : StemmerType
deriving DecidableEq

/-- The JavaScript regex test `/^[A-Z_]+$/.test(word)`: non-empty and
every character an ASCII capital or underscore. -/
def isUpperUnderscorePat (w : List Char) : Bool :=
  nonNil w && w.all (fun c => isUpperAlpha c || c == '_')

/-- Matches `[a-z]*[A-Z]` anchored at the start of the list. -/
def lowersStarUpper : List Char → Bool
  | [] => false
  | c :: rest => isUpperAlpha c || (isLowerAlpha c && lowersStarUpper rest)

/-- Matches `[a-z]+[A-Z]` anchored at the start of the list. -/
def lowersPlusUpper : List Char → Bool
  | [] => false
  | c :: rest => isLowerAlpha c && lowersStarUpper rest

/-- The JavaScript regex test `/[A-Z][a-z]+[A-Z]/.test(word)`: the
pattern occurs somewhere in the word. -/
def hasCamel : List Char → Bool
  | [] => false
  | c :: rest => (isUpperAlpha c && lowersPlusUpper rest) || hasCamel rest

/-- Model of `String.prototype.replace(pattern, repl)` with a plain
string pattern: replace the leftmost occurrence of `p` by `r`; if `p`
does not occur, return the string unchanged (an empty `p` matches at
position 0). -/
def replaceFirst (w p r : List Char) : List Char :=
  if p.isPrefixOf w then r ++ w.drop p.length
  else
    match w with
    | [] => []
    | c :: rest => c :: replaceFirst rest p r

/-- The per-token body of `applyStemming`: identifiers (all-caps-with-
underscores or camel-case) pass through; otherwise the alphabetic run
is extracted, stemmed, and spliced back; tokens with no alphabetic
characters pass through. -/
def stemWord (st : StemmerType) (w : List Char) : List Char :=
  if isUpperUnderscorePat w || hasCamel w then w
  else
    let clean := w.filter isAsciiAlpha
    if nonNil clean then
      match st with
      | StemmerType.porter => replaceFirst w clean (porterStemmer clean)
      | StemmerType.snowball => replaceFirst w clean (porterStemmer clean)
      | StemmerType.lancaster => replaceFirst w clean ((porterStemmer clean).dropLast)
    else w

/-- Model of `applyStemming` from the source: split on runs of
whitespace, stem each token, and join with no separator. -/
def applyStemming (l : List Char) (st : StemmerType) : List Char :=
  joinAll ((jsSplitWs l).map (stemWord st))

/-! ## Whitespace collapse -/

/-- Model of `text.replace(/\n+/g, '\n')`: collapse each run of
newlines to a single newline. -/
def collapseNl : List Char → List Char
  | [] => []
  | [c] => [c]
  | c :: d :: rest =>
    if c = '\n' && d = '\n' then collapseNl (d :: rest)
    else c :: collapseNl (d :: rest)

/-- Model of `String.prototype.trim`: drop whitespace from both ends. -/
def trimWs (l : List Char) : List Char :=
  ((l.dropWhile wsChar).reverse.dropWhile wsChar).reverse

/-- Model of `removeExtraSpaces` from the source: first
`replace(/\s+/g, '')` (delete every whitespace character, newlines
included), then `replace(/\n+/g, '\n')`, then `trim()`. -/
def removeExtraSpaces (l : List Char) : List Char :=
  trimWs (collapseNl (l.filter (fun c => !wsChar c)))

/-! ## Pipeline orchestration -/

/-- Model of the `CompressionOptions` interface: every field optional;
`none` means absent, and `compressText` supplies the defaults. -/
structure CompressionOptions where
  removeStopwords : Option Bool
  removePunctuation : Option Bool
  removeSpaces : Option Bool
  useStemming : Option Bool
  stemmerType : Option StemmerType

/-- Model of `compressText` from the source: destructure the options
with defaults (stopwords true, punctuation false, spaces true, stemming
true, porter), then apply the enabled stages in the fixed order
stopwords, punctuation, stemming, spaces. -/
def compressText (text : List Char) (options : CompressionOptions) : List Char :=
  let doRemoveStopwords := options.removeStopwords.getD true
  let doRemovePunctuation := options.removePunctuation.getD false
  let doRemoveSpaces := options.removeSpaces.getD true
  let useStemming := options.useStemming.getD true
  let st := options.stemmerType.getD StemmerType.porter
  let c1 := if doRemoveStopwords then removeStopwords text else text
  let c2 := if doRemovePunctuation then removePunctuation c1 else c1
  let c3 := if useStemming then applyStemming c2 st else c2
  let c4 := if doRemoveSpaces then removeExtraSpaces c3 else c3
  c4

/-! ## Metric functions

JavaScript numbers are modelled as exact rationals plus the IEEE
special values.  On the integer-derived inputs below every operation
the source performs is exact in double precision except the final
division, whose rational value we keep exactly; the special-value
propagation (division by zero, arithmetic on NaN and infinities)
follows the ECMAScript evaluation rules. -/

/-- A JavaScript number: a finite value (kept exact as a rational),
NaN, or a signed infinity. -/
inductive JSNum where
  | num : ℚ → JSNum
  | nan : JSNum
  | posInf : JSNum
  | negInf : JSNum
deriving DecidableEq

/-- `Math.round` on a finite value: floor of `x + 1/2` (ties go toward
positive infinity, as in ECMAScript). -/
def jsRound (q : ℚ) : ℤ := ⌊q + 1/2⌋

/-- ECMAScript division, including the zero-denominator and
special-value cases (a literal zero denominator is `+0`). -/
def jsDiv : JSNum → JSNum → JSNum
  | JSNum.num a, JSNum.num b =>
    if b = 0 then (if a = 0 then JSNum.nan else if 0 < a then JSNum.posInf else JSNum.negInf)
    else JSNum.num (a / b)
  | JSNum.nan, _ => JSNum.nan
  | _, JSNum.nan => JSNum.nan
  | JSNum.posInf, JSNum.num b => if 0 ≤ b then JSNum.posInf else JSNum.negInf
  | JSNum.negInf, JSNum.num b => if 0 ≤ b then JSNum.negInf else JSNum.posInf
  | _, _ => JSNum.nan

/-- ECMAScript multiplication, including the special-value cases. -/
def jsMul : JSNum → JSNum → JSNum
  | JSNum.num a, JSNum.num b => JSNum.num (a * b)
  | JSNum.nan, _ => JSNum.nan
  | _, JSNum.nan => JSNum.nan
  | JSNum.posInf, JSNum.num b =>
    if b = 0 then JSNum.nan else if 0 < b then JSNum.posInf else JSNum.negInf
  | JSNum.num a, JSNum.posInf =>
    if a = 0 then JSNum.nan else if 0 < a then JSNum.posInf else JSNum.negInf
  | JSNum.negInf, JSNum.num b =>
    if b = 0 then JSNum.nan else if 0 < b then JSNum.negInf else JSNum.posInf
  | JSNum.num a, JSNum.negInf =>
    if a = 0 then JSNum.nan else if 0 < a then JSNum.negInf else JSNum.posInf
  | JSNum.posInf, JSNum.posInf => JSNum.posInf
  | JSNum.negInf, JSNum.negInf => JSNum.posInf
  | JSNum.posInf, JSNum.negInf => JSNum.negInf
  | JSNum.negInf, JSNum.posInf => JSNum.negInf

/-- `Math.round` lifted to JavaScript numbers: NaN and the infinities
pass through. -/
def jsMathRound : JSNum → JSNum
  | JSNum.num a => JSNum.num (jsRound a)
  | x => x

/-- Model of `calculateCompressionRatio` from the source: guard the
zero-length original, otherwise compute the percentage reduction and
round it to one decimal place via `Math.round(ratio * 10) / 10`. -/
def calculateCompressionRatio (original compressed : List Char) : JSNum :=
  let originalLength := original.length
  let compressedLength := compressed.length
  if originalLength = 0 then JSNum.num 0
  else
    let ratio : ℚ := (((originalLength : ℚ) - compressedLength) / originalLength) * 100
    JSNum.num ((jsRound (ratio * 10) : ℚ) / 10)

/-- Model of `estimateTokenReduction` from the source: token counts are
`Math.ceil(length / 4)`; no guard on a zero original count, so the
division is the unguarded JavaScript one. -/
def estimateTokenReduction (original compressed : List Char) : JSNum :=
  let originalTokens : ℕ := (original.length + 3) / 4
  let compressedTokens : ℕ := (compressed.length + 3) / 4
  let reduction :=
    jsMul (jsDiv (JSNum.num ((originalTokens : ℚ) - compressedTokens))
                 (JSNum.num originalTokens))
          (JSNum.num 100)
  jsDiv (jsMathRound (jsMul reduction (JSNum.num 10))) (JSNum.num 10)

/-! ## Spec-side definitions

These transcribe the specification's words (not the source) and are
compared with the source-side definitions above. -/

/-- Spec-side Porter stemmer, from the spec's rule list: lowercase,
check the ordered suffix list, apply the first matching rule. -/
def porterSpec (word : List Char) : List Char :=
  let w := word.map Char.toLower
  if "sses".toList.isSuffixOf w then w.take (w.length - 2)
  else if "ies".toList.isSuffixOf w then w.take (w.length - 2)
  else if "ss".toList.isSuffixOf w then w
  else if "s".toList.isSuffixOf w then w.take (w.length - 1)
  else if "eed".toList.isSuffixOf w then (if 4 < w.length then w.take (w.length - 1) else w)
  else if "ed".toList.isSuffixOf w then (if 4 < w.length then w.take (w.length - 2) else w)
  else if "ing".toList.isSuffixOf w then (if 4 < w.length then w.take (w.length - 3) else w)
  else w

/-- The claim's cleaned form, read literally: first strip every
character that is not a lowercase letter, then lowercase the result. -/
def cleanWordClaim (w : List Char) : List Char :=
  (w.filter isLowerAlpha).map Char.toLower

/-- The claim's filter predicate, built on `cleanWordClaim`. -/
def keepWordClaim (w : List Char) : Bool :=
  nonNil (cleanWordClaim w) && !(stopwords.contains (cleanWordClaim w))

/-- The stopword-removal stage as the claim states it literally:
tokenise on runs of whitespace, discard tokens whose claim-cleaned form
is empty or a stopword, join with no separator. -/
def removeStopwordsClaimed (l : List Char) : List Char :=
  joinAll ((tokens l).filter keepWordClaim)

/-- The amended cleaned form: lowercase the token first, then strip
every character outside `a`-`z` (the order the source uses). -/
def cleanWordAmended (w : List Char) : List Char :=
  (w.map Char.toLower).filter isLowerAlpha

/-- The amended filter predicate. -/
def keepWordAmended (w : List Char) : Bool :=
  nonNil (cleanWordAmended w) && !(stopwords.contains (cleanWordAmended w))

/-- The stopword-removal stage as amended: tokenise on runs of
whitespace, discard tokens whose amended cleaned form is empty or a
stopword, join the surviving tokens (original form, original order)
with no separator. -/
def removeStopwordsAmended (l : List Char) : List Char :=
  joinAll ((tokens l).filter keepWordAmended)

/-- Rounding to one decimal place, as the spec words it:
`Math.round(x * 10) / 10`. -/
def roundOneDecimal (q : ℚ) : ℚ := (jsRound (q * 10) : ℚ) / 10

/-- The spec's compression-ratio formula on the two lengths. -/
def specRatio (a b : ℕ) : ℚ := roundOneDecimal ((((a : ℚ) - b) / a) * 100)

/-! ## Helper lemmas -/

theorem joinAll_nil : joinAll [] = [] := rfl

theorem joinAll_cons (x : List Char) (xs : List (List Char)) :
    joinAll (x :: xs) = x ++ joinAll xs := rfl

theorem splitState_cons (c : Char) (l : List Char) :
    splitState (c :: l) = splitStep c (splitState l) := rfl

theorem tokens_cons_ws {c : Char} (l : List Char) (h : wsChar c = true) :
    tokens (c :: l) = tokens l := by
  cases l <;> simp [tokens, h]

/-- The split-state invariant: the fields list is non-empty, the carry
flag records whether the string starts with whitespace, the first field
is empty exactly when it does, and discarding the empty fields of the
JavaScript split yields the clean tokenisation. -/
theorem splitState_inv (l : List Char) :
    (splitState l).1 ≠ [] ∧
    (splitState l).2 = headWs l ∧
    (headWs l = true → ∃ ts, (splitState l).1 = [] :: ts) ∧
    (l ≠ [] → headWs l = false → ∃ t ts, (splitState l).1 = t :: ts ∧ nonNil t = true) ∧
    (splitState l).1.filter nonNil = tokens l := by
  induction l with
  | nil =>
    refine ⟨?_, rfl, ?_, ?_, rfl⟩
    · simp [splitState]
    · intro h; simp [headWs] at h
    · intro h; exact absurd rfl h
  | cons c l ih =>
    obtain ⟨hne, hflag, hws, hnw, hfil⟩ := ih
    obtain ⟨f, fs, hffs⟩ := List.exists_cons_of_ne_nil hne
    rw [splitState_cons]
    cases hc : wsChar c with
    | true =>
      cases hfl : (splitState l).2 with
      | true =>
        have hhl : headWs l = true := by rw [← hflag]; exact hfl
        obtain ⟨ts, hts⟩ := hws hhl
        have hstep : splitStep c (splitState l) = splitState l := by
          unfold splitStep; rw [hc, hfl]; simp
        rw [hstep]
        refine ⟨hne, ?_, ?_, ?_, ?_⟩
        · rw [hfl]; simp [headWs, hc]
        · intro _; exact ⟨ts, hts⟩
        · intro _ h; simp [headWs, hc] at h
        · rw [hfil, tokens_cons_ws l hc]
      | false =>
        have hstep : splitStep c (splitState l) = ([] :: (splitState l).1, true) := by
          unfold splitStep; rw [hc, hfl]; simp
        rw [hstep]
        refine ⟨by simp, ?_, ?_, ?_, ?_⟩
        · simp [headWs, hc]
        · intro _; exact ⟨(splitState l).1, rfl⟩
        · intro _ h; simp [headWs, hc] at h
        · show ([] :: (splitState l).1).filter nonNil = tokens (c :: l)
          rw [tokens_cons_ws l hc, ← hfil]
          simp [List.filter_cons, nonNil]
    | false =>
      have hstep : splitStep c (splitState l) = ((c :: f) :: fs, false) := by
        unfold splitStep; rw [hc, hffs]; simp
      rw [hstep]
      have hfil2 : (f :: fs).filter nonNil = tokens l := by rw [← hffs]; exact hfil
      refine ⟨by simp, by simp [headWs, hc], ?_, ?_, ?_⟩
      · intro h; simp [headWs, hc] at h
      · intro _ _; exact ⟨c :: f, fs, rfl, rfl⟩
      · show ((c :: f) :: fs).filter nonNil = tokens (c :: l)
        cases l with
        | nil =>
          have h2 : ([[]] : List (List Char)) = f :: fs := hffs
          rw [List.cons.injEq] at h2
          rw [← h2.1, ← h2.2]
          simp [tokens, hc, List.filter_cons, nonNil]
        | cons d l2 =>
          cases hd : wsChar d with
          | true =>
            have hhl : headWs (d :: l2) = true := by simp [headWs, hd]
            obtain ⟨ts, hts⟩ := hws hhl
            have h2 := hffs.symm.trans hts
            rw [List.cons.injEq] at h2
            have hf0 : f = [] := h2.1
            subst hf0
            have hfs : fs.filter nonNil = tokens (d :: l2) := by
              simpa [List.filter_cons, nonNil] using hfil2
            simp [tokens, hc, hd, List.filter_cons, nonNil, hfs]
          | false =>
            have hhl : headWs (d :: l2) = false := by simp [headWs, hd]
            obtain ⟨t, ts, hts, htne⟩ := hnw (by simp) hhl
            have h2 := hffs.symm.trans hts
            rw [List.cons.injEq] at h2
            obtain ⟨hf, hfs2⟩ := h2
            subst hf; subst hfs2
            have hfil3 : f :: fs.filter nonNil = tokens (d :: l2) := by
              simpa [List.filter_cons, htne] using hfil2
            show ((c :: f) :: fs).filter nonNil = tokens (c :: d :: l2)
            simp only [tokens, hc, hd]
            rw [← hfil3]
            simp [List.filter_cons, nonNil]

/-- Tokens that survive the stopword filter are non-empty, so filtering
out the empty fields first changes nothing. -/
theorem filter_keepWord_through_nonNil (xs : List (List Char)) :
    (xs.filter nonNil).filter keepWord = xs.filter keepWord := by
  induction xs with
  | nil => rfl
  | cons x xs ih =>
    cases x with
    | nil => simpa [List.filter_cons, nonNil, keepWord, cleanWord] using ih
    | cons a as => simp [List.filter_cons, nonNil, ih]

/-- Sub-stage emptiness: stopword removal of the empty string. -/
theorem removeStopwords_nil : removeStopwords [] = [] := rfl

/-- Sub-stage emptiness: punctuation removal of the empty string. -/
theorem removePunctuation_nil : removePunctuation [] = [] := rfl

/-- Sub-stage emptiness: stemming of the empty string, for every
stemmer variant. -/
theorem applyStemming_nil (st : StemmerType) : applyStemming [] st = [] := by
  cases st <;> rfl

/-- Sub-stage emptiness: whitespace collapse of the empty string. -/
theorem removeExtraSpaces_nil : removeExtraSpaces [] = [] := rfl

theorem joinAll_filter_length_le (q : List Char → Bool) (xs : List (List Char)) :
    (joinAll (xs.filter q)).length ≤ (joinAll xs).length := by
  induction xs with
  | nil => simp
  | cons x xs ih =>
    cases hq : q x <;> simp [List.filter_cons, hq, joinAll_cons] <;> omega

theorem joinAll_map_length_le (f : List Char → List Char)
    (h : ∀ w, (f w).length ≤ w.length) (xs : List (List Char)) :
    (joinAll (xs.map f)).length ≤ (joinAll xs).length := by
  induction xs with
  | nil => simp
  | cons x xs ih =>
    simp only [List.map_cons, joinAll_cons, List.length_append]
    have := h x
    omega

/-- Each split step adds at most the one processed character to the
total length of the fields. -/
theorem splitStep_join_length (c : Char) (acc : List (List Char) × Bool) :
    (joinAll (splitStep c acc).1).length ≤ (joinAll acc.1).length + 1 := by
  unfold splitStep
  by_cases hc : wsChar c = true
  · simp only [hc, if_true]
    by_cases hfl : acc.2 = true <;> simp [hfl, joinAll_cons]
  · simp only [hc, if_false]
    cases hs : acc.1 with
    | nil => simp [joinAll, joinAll_cons]
    | cons f fs => simp [joinAll_cons]

/-- The fields of the JavaScript split never hold more characters than
the string that was split. -/
theorem splitState_join_length_le (l : List Char) :
    (joinAll (splitState l).1).length ≤ l.length := by
  induction l with
  | nil => simp [splitState, joinAll]
  | cons c l ih =>
    rw [splitState_cons]
    calc (joinAll (splitStep c (splitState l)).1).length
        ≤ (joinAll (splitState l).1).length + 1 := splitStep_join_length c (splitState l)
      _ ≤ l.length + 1 := by omega
      _ = (c :: l).length := by simp

theorem removeStopwords_length_le (l : List Char) :
    (removeStopwords l).length ≤ l.length :=
  le_trans (joinAll_filter_length_le keepWord (jsSplitWs l)) (splitState_join_length_le l)

theorem removePunctuation_length_le (l : List Char) :
    (removePunctuation l).length ≤ l.length :=
  List.length_filter_le _ _

theorem porterRule_length_le (w s : List Char) : (porterRule w s).length ≤ w.length := by
  unfold porterRule
  split_ifs <;> simp [List.length_take]

theorem porterLoop_length_le (w : List Char) (sfx : List (List Char)) :
    (porterLoop w sfx).length ≤ w.length := by
  induction sfx with
  | nil => exact le_refl _
  | cons s rest ih =>
    unfold porterLoop
    split
    · exact porterRule_length_le w s
    · exact ih

theorem porterStemmer_length_le (w : List Char) : (porterStemmer w).length ≤ w.length := by
  have h := porterLoop_length_le (w.map Char.toLower) porterSuffixes
  simpa [porterStemmer] using h

theorem isPrefixOf_length_le {p w : List Char} (h : p.isPrefixOf w = true) :
    p.length ≤ w.length := (List.isPrefixOf_iff_prefix.mp h).length_le

/-- Replacing one occurrence of `p` by the no-longer string `r` never
lengthens the string. -/
theorem replaceFirst_length_le (w p r : List Char) (h : r.length ≤ p.length) :
    (replaceFirst w p r).length ≤ w.length := by
  induction w with
  | nil =>
    unfold replaceFirst
    split
    · next hp =>
      have := isPrefixOf_length_le hp
      simp only [List.length_append, List.length_drop]
      omega
    · exact le_refl _
  | cons a as ih =>
    unfold replaceFirst
    split
    · next hp =>
      have := isPrefixOf_length_le hp
      simp only [List.length_append, List.length_drop]
      omega
    · simpa using ih

theorem stemWord_length_le (st : StemmerType) (w : List Char) :
    (stemWord st w).length ≤ w.length := by
  simp only [stemWord]
  split
  · exact le_refl _
  · split
    · cases st
      · exact replaceFirst_length_le _ _ _ (porterStemmer_length_le _)
      · exact replaceFirst_length_le _ _ _ (porterStemmer_length_le _)
      · refine replaceFirst_length_le _ _ _ ?_
        have h1 := porterStemmer_length_le (w.filter isAsciiAlpha)
        simp only [List.length_dropLast]
        omega
    · exact le_refl _

theorem applyStemming_length_le (l : List Char) (st : StemmerType) :
    (applyStemming l st).length ≤ l.length :=
  le_trans (joinAll_map_length_le (stemWord st) (stemWord_length_le st) _)
    (splitState_join_length_le l)

theorem collapseNl_length_le : ∀ l : List Char, (collapseNl l).length ≤ l.length
  | [] => le_refl _
  | [c] => le_refl _
  | c :: d :: rest => by
    unfold collapseNl
    split
    · exact le_trans (collapseNl_length_le (d :: rest)) (by simp)
    · have h := collapseNl_length_le (d :: rest)
      simp only [List.length_cons] at *
      omega

theorem dropWhile_length_le (p : Char → Bool) :
    ∀ l : List Char, (l.dropWhile p).length ≤ l.length
  | [] => le_refl _
  | c :: rest => by
    unfold List.dropWhile
    split
    · exact le_trans (dropWhile_length_le p rest) (by simp)
    · exact le_refl _

theorem trimWs_length_le (l : List Char) : (trimWs l).length ≤ l.length := by
  unfold trimWs
  calc (((l.dropWhile wsChar).reverse.dropWhile wsChar).reverse).length
      = ((l.dropWhile wsChar).reverse.dropWhile wsChar).length := List.length_reverse _
    _ ≤ (l.dropWhile wsChar).reverse.length := dropWhile_length_le wsChar _
    _ = (l.dropWhile wsChar).length := List.length_reverse _
    _ ≤ l.length := dropWhile_length_le wsChar l

theorem removeExtraSpaces_length_le (l : List Char) :
    (removeExtraSpaces l).length ≤ l.length := by
  unfold removeExtraSpaces
  calc (trimWs (collapseNl (l.filter (fun c => !wsChar c)))).length
      ≤ (collapseNl (l.filter (fun c => !wsChar c))).length := trimWs_length_le _
    _ ≤ (l.filter (fun c => !wsChar c)).length := collapseNl_length_le _
    _ ≤ l.length := List.length_filter_le _ _

/-- A stage gated by its flag never lengthens the text when the stage
itself does not. -/
theorem ite_length_le (b : Bool) (f : List Char → List Char)
    (h : ∀ x : List Char, (f x).length ≤ x.length) (x : List Char) :
    (if b then f x else x).length ≤ x.length := by
  cases b <;> simp [h x]

/-! ## Claim theorems -/

/-- Claim C10: with every stage disabled, the pipeline is the identity
function: `compressText(text, {removeStopwords: false,
removePunctuation: false, useStemming: false, removeSpaces: false})`
returns the input unchanged, for every string. -/
theorem compressText_all_disabled_id (text : List Char) :
    compressText text ⟨some false, some false, some false, some false, none⟩ = text := rfl

/-- Claim C8: the punctuation-removal stage is idempotent — applying it
twice yields the same result as applying it once, for every string. -/
theorem removePunctuation_idempotent (s : List Char) :
    removePunctuation (removePunctuation s) = removePunctuation s := by
  simp [removePunctuation, List.filter_filter]

/-- Claim C2 (code bug): the whitespace-collapse stage deletes interior
newlines instead of retaining them.  The first replacement
`replace(/\s+/g, '')` already removes every newline, so the subsequent
newline-collapsing replacement — whose own comment says it keeps single
line breaks — is dead code: both a single and a double interior newline
are erased entirely, contradicting the claimed contract that interior
newline structure survives as single newlines. -/
theorem removeExtraSpaces_deletes_newlines :
    removeExtraSpaces "a\nb".toList = "ab".toList ∧
    removeExtraSpaces "a\n\nb".toList = "ab".toList := by
  exact ⟨by decide, by decide⟩

/-- Claim C3: on every word of alphabetic characters, the source Porter
stemmer (lowercase, then the first matching rule of the ordered suffix
list `sses, ies, ss, s, eed, ed, ing`) computes exactly the rule table
stated by the spec, with unchanged (lowercased) output when no suffix
matches. -/
theorem porterStemmer_matches_spec (w : List Char)
    (h : ∀ c ∈ w, isAsciiAlpha c = true) :
    porterStemmer w = porterSpec w := rfl

/-- Witness for `porterStemmer_matches_spec` at the concrete word
`testing`. -/
theorem porterStemmer_matches_spec_witness :
    (∀ c ∈ "testing".toList, isAsciiAlpha c = true) ∧
    porterStemmer "testing".toList = porterSpec "testing".toList :=
  ⟨by decide, porterStemmer_matches_spec "testing".toList (by decide)⟩

/-- Counterexample to claim C1 as stated: the claim's cleaning order
(strip all characters that are not lowercase letters, then lowercase)
differs from the source's (lowercase, then strip).  On the token `An`
the source cleans to `an`, a stopword, and discards the token, while
the claim's literal reading cleans to `n`, keeps the token, and
returns `An`. -/
theorem removeStopwords_claim_counterexample :
    removeStopwords "An".toList = [] ∧
    removeStopwordsClaimed "An".toList = "An".toList := by
  exact ⟨by decide, by decide⟩

/-- Claim C1 as amended: the stopword-removal stage splits on runs of
whitespace, cleans each token by lowercasing it and then stripping all
characters outside `a`-`z`, discards tokens whose cleaned form is empty
or a stopword, and concatenates the surviving tokens — original form,
original order — with no separator. -/
theorem removeStopwords_amended_spec (l : List Char) :
    removeStopwords l = removeStopwordsAmended l := by
  have h5 := (splitState_inv l).2.2.2.2
  unfold removeStopwords removeStopwordsAmended jsSplitWs
  congr 1
  calc (splitState l).1.filter keepWord
      = ((splitState l).1.filter nonNil).filter keepWord :=
        (filter_keepWord_through_nonNil _).symm
    _ = (tokens l).filter keepWord := by rw [h5]
    _ = (tokens l).filter keepWordAmended := rfl

/-- Counterexample to claim C7 as stated: with the stated defaults,
`removeStopwords` runs first and joins the three words with no
separator, so the stemming stage sees the single token
`testingtestedtests` and only strips its final `s`; the output is
`testingtestedtest`, not three copies of the common stem `test`. -/
theorem stemming_convergence_counterexample :
    compressText "testing tested tests".toList
        ⟨none, none, none, some true, some StemmerType.porter⟩ =
      "testingtestedtest".toList ∧
    "testingtestedtest".toList ≠ "testtesttest".toList := by
  exact ⟨by decide, by decide⟩

/-- Claim C7 as amended: with stopword removal additionally disabled
(so the stemming stage sees the three words as separate tokens), each
of `testing`, `tested`, `tests` reduces to the identical stem `test`,
and the pipeline returns `testtesttest`. -/
theorem stemming_convergence_amended :
    porterStemmer "testing".toList = "test".toList ∧
    porterStemmer "tested".toList = "test".toList ∧
    porterStemmer "tests".toList = "test".toList ∧
    compressText "testing tested tests".toList
        ⟨some false, none, none, some true, some StemmerType.porter⟩ =
      "testtesttest".toList := by
  exact ⟨by decide, by decide, by decide, by decide⟩


/-- Claim C4: `calculateCompressionRatio(original, compressed)` returns
`((len(original) - len(compressed)) / len(original)) * 100` rounded to
one decimal place when the original is non-empty, returns exactly `0`
when the original is empty, and is never NaN (and, being a total
function of the embedding, never an exception). -/
theorem calculateCompressionRatio_spec (o c : List Char) :
    (o.length = 0 → calculateCompressionRatio o c = JSNum.num 0) ∧
    (0 < o.length → calculateCompressionRatio o c =
      JSNum.num (specRatio o.length c.length)) ∧
    calculateCompressionRatio o c ≠ JSNum.nan := by
  refine ⟨fun h0 => by simp [calculateCompressionRatio, h0], fun hp => ?_, ?_⟩
  · have h0 : ¬ (o.length = 0) := by omega
    simp [calculateCompressionRatio, specRatio, roundOneDecimal, h0]
  · by_cases h0 : o.length = 0 <;> simp [calculateCompressionRatio, h0]

/-- Witness for `calculateCompressionRatio_spec` at a four-character
original and a two-character compression (a 50 percent reduction), and
at the empty pair. -/
theorem calculateCompressionRatio_spec_witness :
    (0 < ("abcd".toList).length ∧
      calculateCompressionRatio "abcd".toList "ab".toList =
        JSNum.num (specRatio ("abcd".toList).length ("ab".toList).length)) ∧
    calculateCompressionRatio [] [] = JSNum.num 0 :=
  ⟨⟨by decide, (calculateCompressionRatio_spec "abcd".toList "ab".toList).2.1 (by decide)⟩,
    (calculateCompressionRatio_spec [] []).1 (by decide)⟩

/-- Claim C9: `estimateTokenReduction` has no zero-length guard — on an
empty original it does not return `0`: with an empty compressed string
it evaluates to NaN (`0/0`), and with a non-empty compressed string to
negative infinity (a negative numerator over `+0`); no exception in
either case, the function being total. -/
theorem estimateTokenReduction_no_guard :
    estimateTokenReduction [] [] = JSNum.nan ∧
    ∀ c : List Char, c ≠ [] → estimateTokenReduction [] c = JSNum.negInf := by
  constructor
  · norm_num [estimateTokenReduction, jsDiv, jsMul, jsMathRound]
  · intro c hc
    have hlen : 0 < c.length := List.length_pos.mpr hc
    have hk : 1 ≤ (c.length + 3) / 4 := by omega
    have hkq : (1:ℚ) ≤ (((c.length + 3) / 4 : ℕ) : ℚ) := by exact_mod_cast hk
    have h1 : ¬(-((((c.length + 3) / 4 : ℕ)) : ℚ) = 0) := by linarith
    have h2 : ¬((0:ℚ) < -((((c.length + 3) / 4 : ℕ)) : ℚ)) := by linarith
    norm_num [estimateTokenReduction, jsDiv, jsMul, jsMathRound, h1, h2]

/-- Witness for `estimateTokenReduction_no_guard` at the non-empty
compressed string `a`. -/
theorem estimateTokenReduction_no_guard_witness :
    (['a'] : List Char) ≠ [] ∧ estimateTokenReduction [] ['a'] = JSNum.negInf :=
  ⟨by decide, estimateTokenReduction_no_guard.2 ['a'] (by decide)⟩

/-- Claim C6: the pipeline is total — every stage of the embedding is a
total function on strings — and on the empty input string it returns
the empty string for every combination of options. -/
theorem compressText_total_empty (opts : CompressionOptions) :
    compressText [] opts = [] := by
  simp only [compressText]
  cases h1 : opts.removeStopwords.getD true <;>
  cases h2 : opts.removePunctuation.getD false <;>
  cases h3 : opts.useStemming.getD true <;>
  cases h4 : opts.removeSpaces.getD true <;>
    simp [removeStopwords_nil, removePunctuation_nil, applyStemming_nil, removeExtraSpaces_nil]

/-- Claim C5: monotonic size reduction — for every non-empty input and
every combination of options (each flag set, unset, or absent, and any
stemmer type), the pipeline output is no longer than its input. -/
theorem compressText_length_le (text : List Char) (opts : CompressionOptions)
    (h : text ≠ []) : (compressText text opts).length ≤ text.length := by
  simp only [compressText]
  exact le_trans (ite_length_le _ _ removeExtraSpaces_length_le _)
    (le_trans (ite_length_le _ (fun x => applyStemming x (opts.stemmerType.getD StemmerType.porter))
        (fun x => applyStemming_length_le x _) _)
      (le_trans (ite_length_le _ _ removePunctuation_length_le _)
        (ite_length_le _ _ removeStopwords_length_le _)))

/-- Witness for `compressText_length_le` at the input `ab` with every
option left to its default. -/
theorem compressText_length_le_witness :
    "ab".toList ≠ [] ∧
    (compressText "ab".toList ⟨none, none, none, none, none⟩).length ≤
      ("ab".toList).length :=
  ⟨by decide, compressText_length_le "ab".toList ⟨none, none, none, none, none⟩ (by decide)⟩
